import Mathlib

/-!
A verification development for the `rofi-mode` plugin wrapper.

The development shallowly embeds the parts of the crate relevant to the
properties under study:
* the event/action model and the `result` trampoline entry point
  (`src/lib.rs`),
* the glib-allocated nul-terminated string buffer (`src/string.rs`),
* the display-name (label) replacement logic of the API capability handle
  (`src/api.rs`),
* the panic-containment combinators `catch_panic` and `abort_on_panic`
  and the per-entry-point defaults (`src/lib.rs`).

Machine integers are modelled as `Nat` with explicit bounds where the code
checks them; a Rust panic is modelled as `Option.none` (for code running
under `catch_panic`) or as an explicit `abort` outcome; raw heap buffers are
modelled as lists of byte values.
-/

namespace Rofi

/-- Modelled from the spec: the host's maximum representable selection index
(`c_uint::MAX`); the source is only given the width of the C type, not a
constant from this repository. A selection index equal to this value means
"no selection". -/
def UINT_MAX : Nat := 2 ^ 32 - 1

/-- Modelled from the spec: the maximum value of the host's size type
(`usize::MAX`), against which `reserve`'s checked addition fails. -/
def USIZE_MAX : Nat := 2 ^ 64 - 1

namespace menu

/-- Modelled from the spec: the `OK` bit flag of the host's tagged event
integer (the `rofi-plugin-sys` crate is outside `src/`; the spec fixes only
that `OK`, `CUSTOM_ACTION`, `CUSTOM_INPUT`, `CUSTOM_COMMAND` are distinct
bit flags combined with sentinel codes). -/
def OK : Nat := 0x10000

/-- Modelled from the spec: the `CANCEL` sentinel code. -/
def CANCEL : Nat := 0x20000

/-- Modelled from the spec: the `CUSTOM_INPUT` bit flag. -/
def CUSTOM_INPUT : Nat := 0x80000

/-- Modelled from the spec: the `ENTRY_DELETE` sentinel code. -/
def ENTRY_DELETE : Nat := 0x100000

/-- Modelled from the spec: the `CUSTOM_COMMAND` bit flag. -/
def CUSTOM_COMMAND : Nat := 0x800000

/-- Modelled from the spec: the `COMPLETE` sentinel code. -/
def COMPLETE : Nat := 0x1000000

/-- Modelled from the spec: the `CUSTOM_ACTION` bit flag marking the
alternate keybinding. -/
def CUSTOM_ACTION : Nat := 0x10000000

/-- Modelled from the spec: the low-bits mask from which the custom command
number (0–18) is extracted. -/
def LOWER_MASK : Nat := 0xFFFF

end menu

/-- Modelled from the spec: the five sentinel action codes the host accepts
(`EXIT`, `NEXT_DIALOG`, `PREVIOUS_DIALOG`, `RELOAD_DIALOG`, `RESET_DIALOG`);
a mode switch is encoded as the mode index itself (required `< 1000`). -/
def EXIT : Nat := 1000

/-- Modelled from the spec: the `NEXT_DIALOG` action code. -/
def NEXT_DIALOG : Nat := 1001

/-- Modelled from the spec: the `RELOAD_DIALOG` action code. -/
def RELOAD_DIALOG : Nat := 1002

/-- Modelled from the spec: the `PREVIOUS_DIALOG` action code. -/
def PREVIOUS_DIALOG : Nat := 1003

/-- Modelled from the spec: the `RESET_DIALOG` action code. -/
def RESET_DIALOG : Nat := 1004

/-- The `Event` enum of `src/lib.rs`: a closed set of normalized events
decoded from the raw outcome code and selection index. -/
inductive Event : Type
  | Cancel (selected : Option Nat)
  | Ok (alt : Bool) (selected : Nat)
  | CustomInput (alt : Bool) (selected : Option Nat)
  | Complete (selected : Option Nat)
  | DeleteEntry (selected : Nat)
  | CustomCommand (number : Nat) (selected : Option Nat)
  deriving DecidableEq, Repr

/-- The `Action` enum of `src/lib.rs`. -/
inductive Action : Type
  | SetMode (mode : Nat)
  | Next
  | Previous
  | Reload
  | Reset
  | Exit
  deriving DecidableEq, Repr

/-- The decoding of the raw `selected_line` argument performed at the top of
the `result` entry point of `src/lib.rs`: `c_uint::MAX` means no selection. -/
def decodeSelected (selected_line : Nat) : Option Nat :=
  if selected_line = UINT_MAX then none else some selected_line

/-- The event-decoding `match` of the `result` entry point of `src/lib.rs`.
`none` models a panic (`expect` on a missing selection, or the
`unexpected mretv` panic on an unrecognized code); the cast `as u8` of the
custom command number is modelled by `% 256`. -/
def decodeEvent (mretv : Nat) (selected_line : Nat) : Option Event :=
  let selected := decodeSelected selected_line
  if mretv = menu.CANCEL then
    some (Event.Cancel selected)
  else if mretv &&& menu.OK ≠ 0 then
    (selected.map fun s => Event.Ok (mretv &&& menu.CUSTOM_ACTION ≠ 0) s)
  else if mretv &&& menu.CUSTOM_INPUT ≠ 0 then
    some (Event.CustomInput (mretv &&& menu.CUSTOM_ACTION ≠ 0) selected)
  else if mretv = menu.COMPLETE then
    some (Event.Complete selected)
  else if mretv = menu.ENTRY_DELETE then
    (selected.map fun s => Event.DeleteEntry s)
  else if mretv &&& menu.CUSTOM_COMMAND ≠ 0 then
    some (Event.CustomCommand ((mretv &&& menu.LOWER_MASK) % 256) selected)
  else
    none

/-- The `match action` translation at the end of the `result` entry point of
`src/lib.rs`: an `Action` becomes the host's integer encoding. -/
def encodeAction : Action → Nat
  | Action.SetMode m => m
  | Action.Next => NEXT_DIALOG
  | Action.Previous => PREVIOUS_DIALOG
  | Action.Reload => RELOAD_DIALOG
  | Action.Reset => RESET_DIALOG
  | Action.Exit => EXIT

/-- The UTF-8 encoding of a single Unicode scalar value, as produced by
Rust's `char::encode_utf8` (used by the `Extend<char>` implementations of
`src/string.rs`). -/
def utf8EncodeChar (c : Nat) : List Nat :=
  if c < 0x80 then [c]
  else if c < 0x800 then
    [0xC0 ||| (c >>> 6), 0x80 ||| (c &&& 0x3F)]
  else if c < 0x10000 then
    [0xE0 ||| (c >>> 12), 0x80 ||| ((c >>> 6) &&& 0x3F), 0x80 ||| (c &&& 0x3F)]
  else
    [0xF0 ||| (c >>> 18), 0x80 ||| ((c >>> 12) &&& 0x3F),
      0x80 ||| ((c >>> 6) &&& 0x3F), 0x80 ||| (c &&& 0x3F)]

/-- A Unicode scalar value: what a Rust `char` may hold. -/
def ValidScalar (c : Nat) : Prop := c < 0xD800 ∨ (0xE000 ≤ c ∧ c < 0x110000)

/-- A byte list is valid UTF-8 when it is the concatenation of the encodings
of a sequence of Unicode scalar values. Rust's `&str` type guarantees this
of every string the buffer of `src/string.rs` stores. -/
def Utf8Valid (l : List Nat) : Prop :=
  ∃ cs : List Nat, (∀ c ∈ cs, ValidScalar c) ∧ l = (cs.map utf8EncodeChar).flatten

/-- The `String` buffer of `src/string.rs`: an owning pointer, a logical
length (excluding the nul terminator) and an allocated capacity. The
allocation behind the pointer is modelled as the byte list `buf`
(of length `capacity` when `capacity > 0`; the static `PTR_TO_NULL`
constant, a single nul byte, when `capacity = 0`). Uninitialized bytes are
modelled as `0`. -/
structure RString : Type where
  buf : List Nat
  len : Nat
  capacity : Nat
  deriving DecidableEq, Repr

namespace RString

/-- The content of the buffer: its first `len` bytes (the view `as_str` of
`src/string.rs` returns). -/
def content (s : RString) : List Nat := s.buf.take s.len

/-- The nul-terminator-inclusive view `as_str_nul` of `src/string.rs`: the
first `len + 1` bytes. -/
def contentNul (s : RString) : List Nat := s.buf.take (s.len + 1)

/-- `String::new` of `src/string.rs`: no allocation, pointer to the static
nul-only constant. -/
def new : RString := ⟨[0], 0, 0⟩

/-- The constant `MIN_NON_ZERO_CAP` of `String::reserve` in
`src/string.rs`. -/
def MIN_NON_ZERO_CAP : Nat := 8

/-- `String::reserve` of `src/string.rs`. `none` models the
"string length overflowed" panic of the checked addition
`len.checked_add(n)?.checked_add(1)`. A fresh `malloc` gives uninitialized
bytes (modelled `0`) with the first byte nul-stamped; `realloc` preserves
the old bytes and appends uninitialized ones. -/
def reserve (s : RString) (n : Nat) : Option RString :=
  if n < s.capacity - s.len then
    some s
  else if USIZE_MAX < s.len + n + 1 then
    none
  else if s.capacity = 0 then
    some ⟨0 :: List.replicate (max MIN_NON_ZERO_CAP (max (s.capacity * 2) (s.len + n + 1)) - 1) 0,
      s.len, max MIN_NON_ZERO_CAP (max (s.capacity * 2) (s.len + n + 1))⟩
  else
    some ⟨s.buf ++
        List.replicate (max MIN_NON_ZERO_CAP (max (s.capacity * 2) (s.len + n + 1)) - s.capacity) 0,
      s.len, max MIN_NON_ZERO_CAP (max (s.capacity * 2) (s.len + n + 1))⟩

/-- `String::push_str` of `src/string.rs`. `none` models a panic: either the
"push_str called on string with nuls" assertion, or an overflow inside
`reserve`. Otherwise the bytes of `x` are copied to positions
`[len, len + x.length)`, the length advances, and the nul terminator is
restamped. -/
def push_str (s : RString) (x : List Nat) : Option RString :=
  if 0 ∈ x then none
  else if x = [] then some s
  else
    match s.reserve x.length with
    | none => none
    | some t =>
      some ⟨t.buf.take t.len ++ x ++ [0] ++ t.buf.drop (t.len + x.length + 1),
        t.len + x.length, t.capacity⟩

/-- `String::clear` of `src/string.rs`: restamp the terminator at index 0
and reset the length; capacity untouched. -/
def clear (s : RString) : RString :=
  if 0 < s.len then ⟨s.buf.set 0 0, 0, s.capacity⟩ else s

/-- `String::shrink_to` of `src/string.rs`: reallocate down to
`max (len + 1) min_capacity` unless the capacity is already no larger. -/
def shrink_to (s : RString) (min_capacity : Nat) : RString :=
  if s.capacity ≤ max (s.len + 1) min_capacity then s
  else ⟨s.buf.take (max (s.len + 1) min_capacity), s.len, max (s.len + 1) min_capacity⟩

/-- `String::shrink_to_fit` of `src/string.rs`. -/
def shrink_to_fit (s : RString) : RString := s.shrink_to 0

/-- `String::with_capacity` of `src/string.rs`: `new` followed by
`reserve`. -/
def with_capacity (capacity : Nat) : Option RString := new.reserve capacity

/-- `String::into_raw` of `src/string.rs`: surrender the allocation. A
never-allocated buffer first gets a fresh one-byte zeroed allocation
(`calloc(1, 1)`). The returned byte list models the surrendered
allocation. -/
def into_raw (s : RString) : List Nat :=
  if s.capacity = 0 then [0] else s.buf

/-- `String::from_raw_parts` of `src/string.rs`: adopt a raw allocation; the
safety preconditions are not checked at runtime (release mode). -/
def from_raw_parts (buf : List Nat) (len capacity : Nat) : RString :=
  ⟨buf, len, capacity⟩

/-- `From<&str> for String` of `src/string.rs`: `new` followed by one
`push_str`. -/
def fromStr (x : List Nat) : Option RString := new.push_str x

/-- `Extend<&str> for String` of `src/string.rs`: fold `push_str` over the
pushed strings, left to right. -/
def extendStrs (s : RString) (xs : List (List Nat)) : Option RString :=
  xs.foldlM push_str s

/-- `Extend<char> for String` of `src/string.rs`: each character is pushed
as its UTF-8 encoding. -/
def extendChars (s : RString) (cs : List Nat) : Option RString :=
  cs.foldlM (fun t c => t.push_str (utf8EncodeChar c)) s

/-- The structural invariant of the buffer (`src/string.rs`): no nul byte in
the content; when `capacity > 0` the length is below the capacity, the
allocation has exactly `capacity` bytes and the byte at index `len` is the
nul terminator; when `capacity = 0` the buffer is the static one-byte
nul-only constant and the length is zero. -/
def swf (s : RString) : Prop :=
  0 ∉ s.content ∧
  (0 < s.capacity →
    s.len < s.capacity ∧ s.buf.length = s.capacity ∧ s.buf[s.len]? = some 0) ∧
  (s.capacity = 0 → s.len = 0 ∧ s.buf = [0])

/-- The full invariant: the structural invariant plus UTF-8 validity of the
content. -/
def wf (s : RString) : Prop := Utf8Valid s.content ∧ s.swf

end RString

/-- The outcome of one raw entry-point call: either a value is returned to
the host, or the process is terminated (`process::abort`) before any value
crosses the boundary. -/
inductive Outcome (α : Type) : Type
  | ret (a : α)
  | abort
  deriving DecidableEq, Repr

/-- The `catch_panic` combinator of `src/lib.rs`: the closure's panic
(`none`) is caught and surfaces as an error value; the call itself always
returns (the double-panic abort inside the catch handler is unreachable in
this model, where dropping a panic payload cannot itself panic). -/
def catch_panic (f : Option α) : Option α := f

/-- The `abort_on_panic` combinator of `src/lib.rs`: a panicking closure
(`none`) terminates the process via the armed `AbortOnDrop` guard; only a
non-panicking closure's value is returned. -/
def abort_on_panic : Option α → Outcome α
  | some a => Outcome.ret a
  | none => Outcome.abort

namespace trampoline

/-- The `init` entry point of `src/lib.rs`: when the slot is empty, run the
initializer under `catch_panic` (the outer `none` of `im` models a panic,
the inner `none` a `Mode::init` error); only a successful initializer fills
the slot and reports success (`1`); a panic or error leaves the slot empty
and reports failure (`0`). A filled slot short-circuits to success. -/
def init (slot : Option σ) (im : Option (Option σ)) : Outcome (Option σ × Nat) :=
  Outcome.ret (match slot with
    | some st => (some st, 1)
    | none =>
      match catch_panic im with
      | some (some st) => (some st, 1)
      | some none => (none, 0)
      | none => (none, 0))

/-- The `destroy` entry point of `src/lib.rs`: the slot contents are dropped
under `catch_panic` and the slot is nulled; a panicking drop is swallowed. -/
def destroy (_slot : Option σ) : Outcome (Option σ) :=
  Outcome.ret none

/-- The `get_num_entries` entry point of `src/lib.rs`: the implementation's
count saturated to `c_uint::MAX`, with `0` as the caught-panic default.
The hook value `entries` is `none` when `Mode::entries` panics. -/
def get_num_entries (entries : Option Nat) : Outcome Nat :=
  Outcome.ret ((catch_panic (entries.map fun n => min n UINT_MAX)).getD 0)

/-- The `result` entry point of `src/lib.rs`, observed at the level of the
per-session slot and the returned code. `react st ev input = none` models a
panic inside `Mode::react` (and a `none` from `decodeEvent` models the
decode panics); the caught-panic default action is `Exit`, and the entry
point never writes the private-data slot, so the slot keeps the state it
had. -/
def result (react : σ → Event → RString → Option (σ × Action))
    (st : σ) (mretv selected_line : Nat) (input : RString) : Outcome (σ × Nat) :=
  match catch_panic (do
      let ev ← decodeEvent mretv selected_line
      react st ev input) with
  | none => Outcome.ret (st, encodeAction Action.Exit)
  | some (st2, act) => Outcome.ret (st2, encodeAction act)

/-- The `get_display_value` entry point of `src/lib.rs`, restricted to its
returned pointer: on a full probe (`get_entry ≠ 0`) the entry content is
surrendered via `into_raw`; on a style-only probe, and on a caught panic,
the null pointer (`none`) is returned. `content` is `none` when the
implementation panics. -/
def get_display_value (content : Option RString) (get_entry : Bool) :
    Outcome (Option (List Nat)) :=
  match catch_panic content with
  | none => Outcome.ret none
  | some s => Outcome.ret (if get_entry then some s.into_raw else none)

/-- The `token_match` entry point of `src/lib.rs`: the implementation's
answer as a C boolean, with `false` as the caught-panic default. -/
def token_match (matched : Option Bool) : Outcome Nat :=
  Outcome.ret (if (catch_panic matched).getD false then 1 else 0)

/-- The `get_icon` entry point of `src/lib.rs`: the surrendered surface
pointer (surfaces are modelled by opaque numeric identities), with the null
pointer as the caught-panic default. -/
def get_icon (icon : Option (Option Nat)) : Outcome (Option Nat) :=
  Outcome.ret ((catch_panic icon).getD none)

/-- The `get_completion` entry point of `src/lib.rs`: the completed entry is
surrendered via `into_raw`; a panic in `Mode::completed` terminates the
process. -/
def get_completion (completed : Option RString) : Outcome (List Nat) :=
  abort_on_panic (completed.map RString.into_raw)

/-- The `preprocess_input` entry point of `src/lib.rs`: an empty processed
string becomes the null pointer, a non-empty one is surrendered via
`into_raw`; a panic (in `Mode::preprocess_input`, or the UTF-8 `expect` on
the raw input) terminates the process. -/
def preprocess_input (processed : Option RString) : Outcome (Option (List Nat)) :=
  abort_on_panic (processed.map fun s =>
    if s.len = 0 then none else some s.into_raw)

/-- The `get_message` entry point of `src/lib.rs`: an empty message becomes
the null pointer, a non-empty one is surrendered via `into_raw`; the null
pointer is also the caught-panic default. -/
def get_message (message : Option RString) : Outcome (Option (List Nat)) :=
  match catch_panic message with
  | none => Outcome.ret none
  | some s => Outcome.ret (if s.len = 0 then none else some s.into_raw)

end trampoline

/-- A ledger of live glib allocations, identified by opaque numeric ids:
`next` is the next fresh id, `live` the ids currently allocated and not yet
freed. -/
structure Heap : Type where
  next : Nat
  live : List Nat
  deriving DecidableEq, Repr

/-- Free one allocation: `none` models a double free (the id is not live). -/
def Heap.free (h : Heap) (i : Nat) : Option Heap :=
  if i ∈ h.live then some ⟨h.next, h.live.erase i⟩ else none

/-- Allocate a fresh id. -/
def Heap.alloc (h : Heap) : Heap × Nat :=
  (⟨h.next + 1, h.next :: h.live⟩, h.next)

/-- A raw nul-terminated buffer as exchanged with the host: the identity of
its backing allocation together with its bytes. -/
structure RawBuf : Type where
  alloc : Nat
  bytes : List Nat
  deriving DecidableEq, Repr

/-- An owned `String` (`src/string.rs`) instrumented with the identity of
its backing allocation; `alloc` is meaningful only when `str.capacity > 0`
(a capacity-0 string is backed by the static constant, not an
allocation). -/
structure HString : Type where
  str : RString
  alloc : Nat
  deriving DecidableEq, Repr

/-- `String::into_raw` (`src/string.rs`) instrumented with the allocation
ledger: a never-allocated string first obtains a fresh one-byte zeroed
allocation (`calloc(1, 1)`); otherwise the existing allocation is
surrendered unchanged. -/
def HString.into_raw (h : Heap) (s : HString) : Heap × RawBuf :=
  if s.str.capacity = 0 then
    let (h2, i) := h.alloc
    (h2, ⟨i, [0]⟩)
  else
    (h, ⟨s.alloc, s.str.buf⟩)

/-- `Drop for String` (`src/string.rs`) instrumented with the allocation
ledger: the allocation is freed exactly when the capacity is nonzero.
`none` models a double free. -/
def HString.drop (h : Heap) (s : HString) : Option Heap :=
  if s.str.capacity = 0 then some h else h.free s.alloc

/-- The state of the `Api` capability handle of `src/api.rs` together with
the host's display-name slot it points into: `host` is the raw pointer
stored in the slot (`none` = null), `dlen`/`dcap` the shadow
length/capacity bookkeeping (irrelevant while `host = none`). -/
structure ApiSt : Type where
  host : Option RawBuf
  dlen : Nat
  dcap : Nat
  deriving DecidableEq, Repr

/-- `Api::change_display_name` of `src/api.rs`: read the old
pointer/length/capacity triple, update the shadow bookkeeping from the new
string, install the new string's raw form (null for `None`), and return the
old value reconstructed via `from_raw_parts`. -/
def ApiSt.change_display_name (h : Heap) (a : ApiSt) (display_name : Option HString) :
    Heap × ApiSt × Option HString :=
  let old_len := a.dlen
  let old_capacity := a.dcap
  let old_ptr := a.host
  let dlen := match display_name with
    | some d => d.str.len
    | none => a.dlen
  let dcap := match display_name with
    | some d => d.str.capacity
    | none => a.dcap
  let (h2, newPtr) := match display_name with
    | some d =>
      let (h2, rb) := d.into_raw h
      (h2, some rb)
    | none => (h, none)
  (h2, ⟨newPtr, dlen, dcap⟩,
    old_ptr.map fun rb =>
      ⟨RString.from_raw_parts rb.bytes old_len old_capacity, rb.alloc⟩)

/-- `Api::replace_display_name` of `src/api.rs`. -/
def ApiSt.replace_display_name (h : Heap) (a : ApiSt) (display_name : HString) :
    Heap × ApiSt × Option HString :=
  a.change_display_name h (some display_name)

/-- `Api::take_display_name` of `src/api.rs`. -/
def ApiSt.take_display_name (h : Heap) (a : ApiSt) : Heap × ApiSt × Option HString :=
  a.change_display_name h none

theorem utf8Valid_nil : Utf8Valid [] :=
  ⟨[], by simp, by simp⟩

theorem utf8Valid_append {a b : List Nat} (ha : Utf8Valid a) (hb : Utf8Valid b) :
    Utf8Valid (a ++ b) := by
  obtain ⟨cs, hcs, rfl⟩ := ha
  obtain ⟨ds, hds, rfl⟩ := hb
  refine ⟨cs ++ ds, fun c hc => ?_, by simp⟩
  rcases List.mem_append.1 hc with h | h
  · exact hcs c h
  · exact hds c h

theorem utf8Valid_encodeChar {c : Nat} (h : ValidScalar c) :
    Utf8Valid (utf8EncodeChar c) :=
  ⟨[c], by simpa using h, by simp⟩

namespace RString

theorem swf_new : new.swf := by
  refine ⟨?_, ?_, ?_⟩ <;> simp [new, content, swf]

theorem swf.terminator {s : RString} (h : s.swf) : s.buf[s.len]? = some 0 := by
  rcases Nat.eq_zero_or_pos s.capacity with hc | hc
  · obtain ⟨hlen, hbuf⟩ := h.2.2 hc
    simp [hlen, hbuf]
  · exact (h.2.1 hc).2.2

theorem swf.len_lt_buf_length {s : RString} (h : s.swf) : s.len < s.buf.length := by
  rcases Nat.eq_zero_or_pos s.capacity with hc | hc
  · obtain ⟨hlen, hbuf⟩ := h.2.2 hc
    simp [hlen, hbuf]
  · obtain ⟨h1, h2, _⟩ := h.2.1 hc
    omega

theorem contentNul_eq {s : RString} (h : s.swf) : s.contentNul = s.content ++ [0] := by
  rw [contentNul, content, List.take_succ, h.terminator]
  rfl

theorem reserve_eq_some {s t : RString} {n : Nat} (hs : s.swf) (h : s.reserve n = some t) :
    t.swf ∧ t.len = s.len ∧ t.content = s.content ∧ t.len + n < t.capacity ∧
      s.capacity ≤ t.capacity ∧ t.buf.length = t.capacity ∧ 0 < t.capacity ∧
      (s.len + n < s.capacity → t = s) := by
  by_cases h1 : n < s.capacity - s.len
  · rw [reserve, if_pos h1] at h
    obtain rfl : s = t := Option.some.inj h
    have hcap : 0 < s.capacity := by omega
    have := hs.2.1 hcap
    exact ⟨hs, rfl, rfl, by omega, le_refl _, this.2.1, hcap, fun _ => rfl⟩
  by_cases h2 : USIZE_MAX < s.len + n + 1
  · rw [reserve, if_neg h1, if_pos h2] at h
    exact absurd h (by simp)
  by_cases h3 : s.capacity = 0
  · obtain ⟨hlen, hbuf⟩ := hs.2.2 h3
    rw [reserve, if_neg h1, if_neg h2, if_pos h3] at h
    have hmin : s.len + n + 1 ≤ max MIN_NON_ZERO_CAP (max (s.capacity * 2) (s.len + n + 1)) :=
      le_trans (le_max_right _ _) (le_max_right _ _)
    have h8 : 8 ≤ max MIN_NON_ZERO_CAP (max (s.capacity * 2) (s.len + n + 1)) :=
      le_trans (by norm_num [MIN_NON_ZERO_CAP]) (le_max_left _ _)
    obtain rfl := Option.some.inj h
    generalize hN : max MIN_NON_ZERO_CAP (max (s.capacity * 2) (s.len + n + 1)) = nc
    rw [hN] at hmin h8
    refine ⟨⟨?_, fun _ => ⟨by simp; omega, by simp; omega, by simp [hlen]⟩,
        fun hz => by simp at hz; omega⟩,
      rfl, ?_, by simp; omega, by omega, by simp; omega, by simp; omega,
      fun hl2 => by omega⟩
    · simp [content, hlen]
    · simp [content, hlen, hbuf]
  · obtain ⟨hlt, hblen, hterm⟩ := hs.2.1 (Nat.pos_of_ne_zero h3)
    rw [reserve, if_neg h1, if_neg h2, if_neg h3] at h
    have hmin : s.len + n + 1 ≤ max MIN_NON_ZERO_CAP (max (s.capacity * 2) (s.len + n + 1)) :=
      le_trans (le_max_right _ _) (le_max_right _ _)
    have h2c : s.capacity * 2 ≤ max MIN_NON_ZERO_CAP (max (s.capacity * 2) (s.len + n + 1)) :=
      le_trans (le_max_left _ _) (le_max_right _ _)
    obtain rfl := Option.some.inj h
    generalize hN : max MIN_NON_ZERO_CAP (max (s.capacity * 2) (s.len + n + 1)) = nc
    rw [hN] at hmin h2c
    have hcontent : (s.buf ++ List.replicate (nc - s.capacity) 0).take s.len
        = s.buf.take s.len :=
      List.take_append_of_le_length (by omega)
    have hterm2 : (s.buf ++ List.replicate (nc - s.capacity) 0)[s.len]? = some 0 := by
      rw [List.getElem?_append_left (by omega)]
      exact hterm
    refine ⟨⟨?_, fun _ => ⟨by simp; omega, by simp [hblen]; omega, hterm2⟩,
        fun hz => by simp at hz; omega⟩,
      rfl, ?_, by simp; omega, by simp; omega, by simp [hblen]; omega, by simp; omega,
      fun hl2 => by omega⟩
    · simpa [content, hcontent] using hs.1
    · simpa [content] using hcontent

theorem push_str_eq_some {s t : RString} {x : List Nat} (hs : s.swf) (h : s.push_str x = some t) :
    t.swf ∧ t.content = s.content ++ x ∧ t.len = s.len + x.length ∧
      s.capacity ≤ t.capacity ∧ 0 ∉ x ∧
      (s.len + x.length < s.capacity → t.capacity = s.capacity) := by
  rw [push_str] at h
  by_cases hx : 0 ∈ x
  · rw [if_pos hx] at h
    exact absurd h (by simp)
  rw [if_neg hx] at h
  by_cases he : x = []
  · rw [if_pos he] at h
    obtain rfl := Option.some.inj h
    subst he
    exact ⟨hs, by simp, by simp, le_refl _, hx, fun _ => rfl⟩
  rw [if_neg he] at h
  rcases hr : s.reserve x.length with _ | u
  · rw [hr] at h
    exact absurd h (by simp)
  rw [hr] at h
  obtain ⟨huswf, hulen, hucontent, hufit, hucap, hublen, hupos, hunoop⟩ := reserve_eq_some hs hr
  obtain rfl := Option.some.inj h
  have hble : u.len + x.length + 1 ≤ u.buf.length := by omega
  have hAlen : (u.buf.take u.len).length = u.len := by
    simp
    omega
  have hABlen : (u.buf.take u.len ++ x).length = u.len + x.length := by
    simp [hAlen]
  have hassoc : u.buf.take u.len ++ x ++ [0] ++ u.buf.drop (u.len + x.length + 1)
      = (u.buf.take u.len ++ x) ++ ([0] ++ u.buf.drop (u.len + x.length + 1)) := by
    simp [List.append_assoc]
  have hcont : (u.buf.take u.len ++ x ++ [0] ++ u.buf.drop (u.len + x.length + 1)).take
      (u.len + x.length) = u.content ++ x := by
    rw [hassoc, ← hABlen, List.take_left, content]
  have hterm : (u.buf.take u.len ++ x ++ [0] ++ u.buf.drop (u.len + x.length + 1))[u.len
      + x.length]? = some 0 := by
    rw [hassoc, List.getElem?_append_right (by omega), hABlen]
    simp
  have hblen : (u.buf.take u.len ++ x ++ [0] ++ u.buf.drop (u.len + x.length + 1)).length
      = u.capacity := by
    simp [hAlen]
    omega
  refine ⟨⟨?_, fun _ => ⟨by simp; omega, hblen, hterm⟩, fun hz => by simp at hz; omega⟩,
    ?_, by simp [hulen], by simp; omega, hx, fun hfit => ?_⟩
  · rw [content]
    simp only [hcont]
    rw [hucontent] at hcont ⊢
    exact List.not_mem_append hs.1 hx
  · rw [content]
    simp only
    rw [hcont, hucontent]
  · simp only
    rw [(hunoop (by omega) : u = s)]

theorem push_str_isSome (s : RString) (x : List Nat) (hx : 0 ∉ x)
    (hov : s.len + x.length < s.capacity ∨ s.len + x.length < USIZE_MAX) :
    ∃ t, s.push_str x = some t := by
  rw [push_str, if_neg hx]
  by_cases he : x = []
  · rw [if_pos he]
    exact ⟨s, rfl⟩
  rw [if_neg he]
  have hres : ∃ u, s.reserve x.length = some u := by
    rw [reserve]
    by_cases h1 : x.length < s.capacity - s.len
    · rw [if_pos h1]
      exact ⟨s, rfl⟩
    rw [if_neg h1]
    have h2 : ¬ USIZE_MAX < s.len + x.length + 1 := by
      rcases hov with hfit | hbig
      · omega
      · omega
    rw [if_neg h2]
    by_cases h3 : s.capacity = 0
    · rw [if_pos h3]
      exact ⟨_, rfl⟩
    · rw [if_neg h3]
      exact ⟨_, rfl⟩
  obtain ⟨u, hu⟩ := hres
  rw [hu]
  exact ⟨_, rfl⟩

theorem extendStrs_nil (s : RString) : s.extendStrs [] = some s := rfl

theorem extendStrs_cons (s : RString) (x : List Nat) (xs : List (List Nat)) :
    s.extendStrs (x :: xs) = (s.push_str x).bind fun u => u.extendStrs xs := by
  rw [extendStrs, List.foldlM_cons]
  rfl

theorem extendStrs_eq (xs : List (List Nat)) :
    ∀ s : RString, s.swf → (∀ x ∈ xs, 0 ∉ x) → s.len + xs.flatten.length < USIZE_MAX →
    ∃ t, s.extendStrs xs = some t ∧ t.swf ∧ t.content = s.content ++ xs.flatten ∧
      t.len = s.len + xs.flatten.length ∧ s.capacity ≤ t.capacity := by
  induction xs with
  | nil =>
    intro s hs _ _
    exact ⟨s, rfl, hs, by simp, by simp, le_refl _⟩
  | cons x xs ih =>
    intro s hs hnul hov
    have hx : 0 ∉ x := hnul x (by simp)
    obtain ⟨u, hu⟩ := push_str_isSome s x hx (Or.inr (by simp at hov; omega))
    obtain ⟨huswf, hucont, hulen, hucap, _, _⟩ := push_str_eq_some hs hu
    obtain ⟨t, ht, htswf, htcont, htlen, htcap⟩ :=
      ih u huswf (fun y hy => hnul y (by simp [hy])) (by rw [hulen]; simp at hov ⊢; omega)
    refine ⟨t, ?_, htswf, ?_, ?_, le_trans hucap htcap⟩
    · rw [extendStrs_cons, hu]
      exact ht
    · rw [htcont, hucont]
      simp
    · rw [htlen, hulen]
      simp
      omega

theorem extendStrs_fits (xs : List (List Nat)) :
    ∀ s : RString, s.swf → (∀ x ∈ xs, 0 ∉ x) → s.len + xs.flatten.length < s.capacity →
    ∃ t, s.extendStrs xs = some t ∧ t.capacity = s.capacity ∧ t.swf ∧
      t.len = s.len + xs.flatten.length := by
  induction xs with
  | nil =>
    intro s hs _ _
    exact ⟨s, rfl, rfl, hs, by simp⟩
  | cons x xs ih =>
    intro s hs hnul hfit
    have hx : 0 ∉ x := hnul x (by simp)
    obtain ⟨u, hu⟩ := push_str_isSome s x hx (Or.inl (by simp at hfit; omega))
    obtain ⟨huswf, hucont, hulen, hucap, _, hnoop⟩ := push_str_eq_some hs hu
    have hucapeq : u.capacity = s.capacity := hnoop (by simp at hfit; omega)
    obtain ⟨t, ht, htcap, htswf, htlen⟩ :=
      ih u huswf (fun y hy => hnul y (by simp [hy]))
        (by rw [hulen, hucapeq]; simp at hfit ⊢; omega)
    refine ⟨t, ?_, by rw [htcap, hucapeq], htswf, ?_⟩
    · rw [extendStrs_cons, hu]
      exact ht
    · rw [htlen, hulen]
      simp
      omega

theorem clear_spec {s : RString} (hs : s.swf) :
    s.clear.swf ∧ s.clear.content = [] ∧ s.clear.capacity = s.capacity := by
  rw [clear]
  by_cases hl : 0 < s.len
  · rw [if_pos hl]
    have hcap : 0 < s.capacity := by
      rcases Nat.eq_zero_or_pos s.capacity with hc | hc
      · obtain ⟨h0, _⟩ := hs.2.2 hc
        omega
      · exact hc
    obtain ⟨hlt, hblen, hterm⟩ := hs.2.1 hcap
    refine ⟨⟨by simp [content], fun _ => ⟨hcap, by simp [hblen], ?_⟩,
        fun hz => by simp at hz; omega⟩, by simp [content], rfl⟩
    exact List.getElem?_set_self (by omega)
  · rw [if_neg hl]
    have hl0 : s.len = 0 := by omega
    exact ⟨hs, by simp [content, hl0], rfl⟩

theorem shrink_to_spec {s : RString} (m : Nat) (hs : s.swf) :
    (s.shrink_to m).swf ∧ (s.shrink_to m).content = s.content ∧
      (s.shrink_to m).len = s.len := by
  rw [shrink_to]
  by_cases hc : s.capacity ≤ max (s.len + 1) m
  · rw [if_pos hc]
    exact ⟨hs, rfl, rfl⟩
  rw [if_neg hc]
  have hml : s.len + 1 ≤ max (s.len + 1) m := le_max_left _ _
  have hcap : 0 < s.capacity := by omega
  obtain ⟨hlt, hblen, hterm⟩ := hs.2.1 hcap
  generalize hN : max (s.len + 1) m = mc
  rw [hN] at hml hc
  have hcont : (s.buf.take mc).take s.len = s.buf.take s.len := by
    rw [List.take_take, inf_eq_left.2 (by omega)]
  refine ⟨⟨?_, fun _ => ⟨by simp; omega, by simp [hblen]; omega, ?_⟩,
      fun hz => absurd (by simpa using hz) (by omega : ¬ mc = 0)⟩, ?_, rfl⟩
  · simpa [content, hcont] using hs.1
  · show (List.take mc s.buf)[s.len]? = some 0
    rw [List.getElem?_take, if_pos (by omega)]
    exact hterm
  · simpa [content] using hcont

theorem wf_new : new.wf := ⟨utf8Valid_nil, swf_new⟩

theorem new_content : new.content = [] := rfl

theorem new_len : new.len = 0 := rfl

instance (s : RString) : Decidable s.swf := by
  unfold swf
  infer_instance

theorem extendChars_nil (s : RString) : s.extendChars [] = some s := rfl

theorem extendChars_cons (s : RString) (c : Nat) (cs : List Nat) :
    s.extendChars (c :: cs) = (s.push_str (utf8EncodeChar c)).bind fun u => u.extendChars cs := by
  rw [extendChars, List.foldlM_cons]
  rfl

theorem extendStrs_wf (xs : List (List Nat)) :
    ∀ s t : RString, s.wf → (∀ x ∈ xs, Utf8Valid x) → s.extendStrs xs = some t → t.wf := by
  induction xs with
  | nil =>
    intro s t hs _ h
    rw [extendStrs_nil] at h
    obtain rfl := Option.some.inj h
    exact hs
  | cons x xs ih =>
    intro s t hs hv h
    rw [extendStrs_cons] at h
    rcases hu : s.push_str x with _ | u
    · rw [hu] at h
      exact absurd h (by simp)
    rw [hu, Option.some_bind] at h
    obtain ⟨huswf, hucont, _, _, _, _⟩ := push_str_eq_some hs.2 hu
    have huwf : u.wf := ⟨by rw [hucont]; exact utf8Valid_append hs.1 (hv x (by simp)), huswf⟩
    exact ih u t huwf (fun y hy => hv y (by simp [hy])) h

theorem extendChars_wf (cs : List Nat) :
    ∀ s t : RString, s.wf → (∀ c ∈ cs, ValidScalar c) → s.extendChars cs = some t → t.wf := by
  induction cs with
  | nil =>
    intro s t hs _ h
    rw [extendChars_nil] at h
    obtain rfl := Option.some.inj h
    exact hs
  | cons c cs ih =>
    intro s t hs hv h
    rw [extendChars_cons] at h
    rcases hu : s.push_str (utf8EncodeChar c) with _ | u
    · rw [hu] at h
      exact absurd h (by simp)
    rw [hu, Option.some_bind] at h
    obtain ⟨huswf, hucont, _, _, _, _⟩ := push_str_eq_some hs.2 hu
    have huwf : u.wf :=
      ⟨by rw [hucont]; exact utf8Valid_append hs.1 (utf8Valid_encodeChar (hv c (by simp))), huswf⟩
    exact ih u t huwf (fun d hd => hv d (by simp [hd])) h

end RString

theorem ascii_encode (l : List Nat) :
    (∀ c ∈ l, c < 128) → (l.map utf8EncodeChar).flatten = l := by
  induction l with
  | nil =>
    intro _
    simp
  | cons c l ih =>
    intro h
    rw [List.map_cons, List.flatten_cons, utf8EncodeChar, if_pos (h c (by simp)),
      ih (fun d hd => h d (by simp [hd]))]
    rfl

theorem utf8Valid_of_ascii {l : List Nat} (h : ∀ c ∈ l, c < 128) : Utf8Valid l :=
  ⟨l, fun c hc => Or.inl (lt_trans (h c hc) (by norm_num)), (ascii_encode l h).symm⟩


/-- C1: the decoded `Event` follows the fixed tie-break order — the exact
`CANCEL` sentinel first, then the `OK` flag, then the `CUSTOM_INPUT` flag,
then the `COMPLETE` sentinel, then the `ENTRY_DELETE` sentinel, then the
`CUSTOM_COMMAND` flag with the command number taken from the low bits; an
unrecognized code decodes to a fatal contract violation; a selection index
equal to `c_uint::MAX` decodes to no selection; and the three literal table
entries hold: `CANCEL` with index `MAX` gives `Cancel {selected: None}`,
`OK ||| CUSTOM_ACTION` with index `3` gives `Ok {alt: true, selected: 3}`,
and `CUSTOM_COMMAND` with low bits `5` and index `MAX` gives
`CustomCommand {number: 5, selected: None}`. -/
theorem decode_event_table :
    (decodeSelected UINT_MAX = none ∧ ∀ sel : Nat, sel ≠ UINT_MAX → decodeSelected sel = some sel) ∧
    (∀ sel : Nat, decodeEvent menu.CANCEL sel = some (Event.Cancel (decodeSelected sel))) ∧
    (∀ m sel : Nat, m ≠ menu.CANCEL → m &&& menu.OK ≠ 0 →
      decodeEvent m sel =
        (decodeSelected sel).map fun s => Event.Ok (decide (m &&& menu.CUSTOM_ACTION ≠ 0)) s) ∧
    (∀ m sel : Nat, m ≠ menu.CANCEL → m &&& menu.OK = 0 → m &&& menu.CUSTOM_INPUT ≠ 0 →
      decodeEvent m sel =
        some (Event.CustomInput (decide (m &&& menu.CUSTOM_ACTION ≠ 0)) (decodeSelected sel))) ∧
    (∀ sel : Nat, decodeEvent menu.COMPLETE sel = some (Event.Complete (decodeSelected sel))) ∧
    (∀ sel : Nat, decodeEvent menu.ENTRY_DELETE sel =
      (decodeSelected sel).map fun s => Event.DeleteEntry s) ∧
    (∀ m sel : Nat, m ≠ menu.CANCEL → m &&& menu.OK = 0 → m &&& menu.CUSTOM_INPUT = 0 →
      m ≠ menu.COMPLETE → m ≠ menu.ENTRY_DELETE → m &&& menu.CUSTOM_COMMAND ≠ 0 →
      decodeEvent m sel =
        some (Event.CustomCommand ((m &&& menu.LOWER_MASK) % 256) (decodeSelected sel))) ∧
    (∀ m sel : Nat, m ≠ menu.CANCEL → m &&& menu.OK = 0 → m &&& menu.CUSTOM_INPUT = 0 →
      m ≠ menu.COMPLETE → m ≠ menu.ENTRY_DELETE → m &&& menu.CUSTOM_COMMAND = 0 →
      decodeEvent m sel = none) ∧
    decodeEvent menu.CANCEL UINT_MAX = some (Event.Cancel none) ∧
    decodeEvent (menu.OK ||| menu.CUSTOM_ACTION) 3 = some (Event.Ok true 3) ∧
    decodeEvent (menu.CUSTOM_COMMAND ||| 5) UINT_MAX =
      some (Event.CustomCommand 5 none) := by
  refine ⟨⟨by simp [decodeSelected], fun sel h => by simp [decodeSelected, h]⟩,
    fun sel => by simp [decodeEvent],
    fun m sel h1 h2 => ?_, fun m sel h1 h2 h3 => ?_,
    fun sel => ?_,
    fun sel => ?_,
    fun m sel h1 h2 h3 h4 h5 h6 => ?_, fun m sel h1 h2 h3 h4 h5 h6 => ?_,
    by decide, by decide, by decide⟩
  · simp only [decodeEvent, if_neg h1, if_pos h2]
  · simp [decodeEvent, h1, h2, h3]
  · simp +decide [decodeEvent, menu.COMPLETE, menu.CANCEL, menu.OK, menu.CUSTOM_INPUT]
  · simp +decide [decodeEvent, menu.ENTRY_DELETE, menu.CANCEL, menu.OK, menu.CUSTOM_INPUT,
      menu.COMPLETE]
  · simp [decodeEvent, h1, h2, h3, h4, h5, h6]
  · simp [decodeEvent, h1, h2, h3, h4, h5, h6]

/-- Witness for `decode_event_table`: the hypothesis-bearing clauses are
instantiated at concrete codes. -/
theorem decode_event_table_witness :
    decodeEvent (menu.OK ||| menu.CUSTOM_ACTION) 3 =
      (decodeSelected 3).map (fun s => Event.Ok (decide ((menu.OK ||| menu.CUSTOM_ACTION) &&& menu.CUSTOM_ACTION ≠ 0)) s) ∧
    decodeEvent menu.CUSTOM_INPUT 7 =
      some (Event.CustomInput (decide (menu.CUSTOM_INPUT &&& menu.CUSTOM_ACTION ≠ 0)) (decodeSelected 7)) ∧
    decodeEvent (menu.CUSTOM_COMMAND ||| 5) UINT_MAX =
      some (Event.CustomCommand (((menu.CUSTOM_COMMAND ||| 5) &&& menu.LOWER_MASK) % 256) (decodeSelected UINT_MAX)) ∧
    decodeEvent 1 0 = none := by
  refine ⟨decode_event_table.2.2.1 _ 3 (by decide) (by decide),
    decode_event_table.2.2.2.1 _ 7 (by decide) (by decide) (by decide),
    decode_event_table.2.2.2.2.2.2.1 _ UINT_MAX (by decide) (by decide) (by decide)
      (by decide) (by decide) (by decide),
    decode_event_table.2.2.2.2.2.2.2.1 1 0 (by decide) (by decide) (by decide)
      (by decide) (by decide) (by decide)⟩

/-- C2: when the reaction logic panics during the `result` entry point, the
entry point returns the host encoding of `Action::Exit`, and the per-session
slot still holds the same live implementation state (the session is not
destroyed). -/
theorem react_panic_preserves_slot {σ : Type}
    (react : σ → Event → RString → Option (σ × Action))
    (st : σ) (mretv selected_line : Nat) (input : RString)
    (hp : ∀ ev : Event, react st ev input = none) :
    trampoline.result react st mretv selected_line input
      = Outcome.ret (st, encodeAction Action.Exit) ∧ encodeAction Action.Exit = EXIT := by
  constructor
  · cases hd : decodeEvent mretv selected_line <;>
      simp [trampoline.result, catch_panic, hd, hp]
  · rfl

/-- Witness for `react_panic_preserves_slot`: a concrete always-panicking
reaction on a concrete session state. -/
theorem react_panic_preserves_slot_witness :
    trampoline.result (fun (_ : Nat) (_ : Event) (_ : RString) => none) 5
        menu.CANCEL 0 RString.new
      = Outcome.ret (5, encodeAction Action.Exit) ∧ encodeAction Action.Exit = EXIT :=
  react_panic_preserves_slot (fun _ _ _ => none) 5 menu.CANCEL 0 RString.new
    (fun _ => rfl)

/-- C3: every buffer operation preserves the invariant — the content (the
first `len` bytes) is valid UTF-8 with no nul byte; when `capacity > 0` the
length is below the capacity and the byte at index `len` is the nul
terminator; when `capacity = 0` the length is zero and the buffer is the
static nul-only constant, so the nul-terminated view is readable without an
allocation. -/
theorem string_invariant_preservation :
    RString.new.wf ∧
    (∀ (n : Nat) (t : RString), RString.with_capacity n = some t → t.wf) ∧
    (∀ (s t : RString) (n : Nat), s.wf → s.reserve n = some t → t.wf) ∧
    (∀ (s t : RString) (x : List Nat), s.wf → Utf8Valid x → s.push_str x = some t → t.wf) ∧
    (∀ s : RString, s.wf → s.clear.wf) ∧
    (∀ (s : RString) (m : Nat), s.wf → (s.shrink_to m).wf) ∧
    (∀ s : RString, s.wf → s.shrink_to_fit.wf) ∧
    (∀ (x : List Nat) (t : RString), Utf8Valid x → RString.fromStr x = some t → t.wf) ∧
    (∀ (s t : RString) (xs : List (List Nat)), s.wf → (∀ x ∈ xs, Utf8Valid x) →
      s.extendStrs xs = some t → t.wf) ∧
    (∀ (s t : RString) (cs : List Nat), s.wf → (∀ c ∈ cs, ValidScalar c) →
      s.extendChars cs = some t → t.wf) := by
  have hpush : ∀ (s t : RString) (x : List Nat), s.wf → Utf8Valid x →
      s.push_str x = some t → t.wf := by
    intro s t x hs hx h
    obtain ⟨hswf, hcont, _, _, _, _⟩ := RString.push_str_eq_some hs.2 h
    exact ⟨by rw [hcont]; exact utf8Valid_append hs.1 hx, hswf⟩
  have hres : ∀ (s t : RString) (n : Nat), s.wf → s.reserve n = some t → t.wf := by
    intro s t n hs h
    obtain ⟨hswf, _, hcont, _⟩ := RString.reserve_eq_some hs.2 h
    exact ⟨by rw [hcont]; exact hs.1, hswf⟩
  refine ⟨RString.wf_new, fun n t h => ?_, hres, hpush, fun s hs => ?_, fun s m hs => ?_,
    fun s hs => ?_, fun x t hx h => hpush RString.new t x RString.wf_new hx h,
    fun s t xs hs hv h => RString.extendStrs_wf xs s t hs hv h,
    fun s t cs hs hv h => RString.extendChars_wf cs s t hs hv h⟩
  · rw [RString.with_capacity] at h
    exact hres RString.new t n RString.wf_new h
  · obtain ⟨hswf, hcont, _⟩ := RString.clear_spec hs.2
    exact ⟨by rw [hcont]; exact utf8Valid_nil, hswf⟩
  · obtain ⟨hswf, hcont, _⟩ := RString.shrink_to_spec m hs.2
    exact ⟨by rw [hcont]; exact hs.1, hswf⟩
  · obtain ⟨hswf, hcont, _⟩ := RString.shrink_to_spec 0 hs.2
    exact ⟨by show Utf8Valid (s.shrink_to 0).content; rw [hcont]; exact hs.1, hswf⟩

/-- Witness for `string_invariant_preservation`: pushing the byte string
"a" onto a fresh buffer yields a buffer satisfying the invariant. -/
theorem string_invariant_preservation_witness :
    (RString.mk [97, 0, 0, 0, 0, 0, 0, 0] 1 8).wf :=
  string_invariant_preservation.2.2.2.1 RString.new
    (RString.mk [97, 0, 0, 0, 0, 0, 0, 0] 1 8) [97] RString.wf_new
    (utf8Valid_of_ascii (by decide)) (by decide)

/-- C4: `reserve(n)` is a no-op exactly when the requested free space
already exists; otherwise the new capacity is
`max (capacity * 2) (len + n + 1)` floored at the minimum non-zero capacity
8, a fresh allocation gets its first byte nul-stamped, and an overflow of
`len + n + 1` fails loudly (a panic, not a recoverable error). -/
theorem reserve_growth_policy (s : RString) (n : Nat) (hs : s.wf) :
    (n < s.capacity - s.len → s.reserve n = some s) ∧
    (¬ n < s.capacity - s.len → USIZE_MAX < s.len + n + 1 → s.reserve n = none) ∧
    (¬ n < s.capacity - s.len → s.len + n + 1 ≤ USIZE_MAX →
      ∃ t, s.reserve n = some t ∧
        t.capacity = max RString.MIN_NON_ZERO_CAP (max (s.capacity * 2) (s.len + n + 1)) ∧
        s.capacity < t.capacity ∧ t ≠ s ∧
        (s.capacity = 0 → t.buf[0]? = some 0)) := by
  refine ⟨fun h1 => by rw [RString.reserve, if_pos h1],
    fun h1 h2 => by rw [RString.reserve, if_neg h1, if_pos h2],
    fun h1 h2 => ?_⟩
  rw [RString.reserve, if_neg h1, if_neg (by omega : ¬ USIZE_MAX < s.len + n + 1)]
  have h8 : 8 ≤ max RString.MIN_NON_ZERO_CAP (max (s.capacity * 2) (s.len + n + 1)) :=
    le_trans (by norm_num [RString.MIN_NON_ZERO_CAP]) (le_max_left _ _)
  have hmin : s.len + n + 1 ≤ max RString.MIN_NON_ZERO_CAP (max (s.capacity * 2) (s.len + n + 1)) :=
    le_trans (le_max_right _ _) (le_max_right _ _)
  by_cases h3 : s.capacity = 0
  · rw [if_pos h3]
    refine ⟨_, rfl, rfl,
      (by show s.capacity
            < max RString.MIN_NON_ZERO_CAP (max (s.capacity * 2) (s.len + n + 1))
          omega),
      fun heq => absurd (congrArg RString.capacity heq)
        (by show ¬ max RString.MIN_NON_ZERO_CAP (max (s.capacity * 2) (s.len + n + 1))
              = s.capacity
            omega),
      fun _ => by simp⟩
  · rw [if_neg h3]
    have hcap : 0 < s.capacity := Nat.pos_of_ne_zero h3
    have hlt := (hs.2.2.1 hcap).1
    refine ⟨_, rfl, rfl,
      (by show s.capacity
            < max RString.MIN_NON_ZERO_CAP (max (s.capacity * 2) (s.len + n + 1))
          omega),
      fun heq => absurd (congrArg RString.capacity heq)
        (by show ¬ max RString.MIN_NON_ZERO_CAP (max (s.capacity * 2) (s.len + n + 1))
              = s.capacity
            omega),
      fun hz => absurd hz h3⟩

/-- Witness for `reserve_growth_policy`: the no-op, overflow and growth
branches at concrete inputs. -/
theorem reserve_growth_policy_witness :
    (RString.mk [0, 0] 0 2).reserve 1 = some (RString.mk [0, 0] 0 2) ∧
    RString.new.reserve USIZE_MAX = none ∧
    ∃ t, RString.new.reserve 0 = some t ∧
      t.capacity = max RString.MIN_NON_ZERO_CAP (max (RString.new.capacity * 2)
        (RString.new.len + 0 + 1)) ∧
      RString.new.capacity < t.capacity ∧ t ≠ RString.new ∧
      (RString.new.capacity = 0 → t.buf[0]? = some 0) :=
  ⟨(reserve_growth_policy (RString.mk [0, 0] 0 2) 1
      ⟨utf8Valid_of_ascii (by decide), by decide⟩).1 (by decide),
    (reserve_growth_policy RString.new USIZE_MAX RString.wf_new).2.1 (by decide) (by decide),
    (reserve_growth_policy RString.new 0 RString.wf_new).2.2 (by decide) (by decide)⟩

/-- C5: a sequence of `push_str` calls on a fresh buffer, each pushed string
free of nul bytes, produces exactly the left-to-right concatenation as
content, and the terminator-inclusive view is that concatenation followed by
one nul byte at index `len`. -/
theorem push_str_concatenation (xs : List (List Nat)) (hnul : ∀ x ∈ xs, 0 ∉ x)
    (hov : xs.flatten.length < USIZE_MAX) :
    ∃ t, RString.new.extendStrs xs = some t ∧ t.content = xs.flatten ∧
      t.len = xs.flatten.length ∧ t.contentNul = xs.flatten ++ [0] := by
  obtain ⟨t, ht, htswf, htcont, htlen, _⟩ :=
    RString.extendStrs_eq xs RString.new RString.swf_new hnul
      (by simpa [RString.new_len] using hov)
  have hc : t.content = xs.flatten := by simpa [RString.new_content] using htcont
  exact ⟨t, ht, hc, by simpa [RString.new_len] using htlen,
    by rw [RString.contentNul_eq htswf, hc]⟩

/-- Witness for `push_str_concatenation`: pushing "a" then "bc". -/
theorem push_str_concatenation_witness :
    ∃ t, RString.new.extendStrs [[97], [98, 99]] = some t ∧
      t.content = [[97], [98, 99]].flatten ∧
      t.len = [[97], [98, 99]].flatten.length ∧
      t.contentNul = [[97], [98, 99]].flatten ++ [0] :=
  push_str_concatenation [[97], [98, 99]] (by decide) (by decide)

/-- C6: after `reserve(n)`, any sequence of `push_str` calls totalling at
most `n` bytes keeps the capacity (hence the allocation) exactly what
`reserve` established, at every intermediate step of the sequence. -/
theorem reserve_no_realloc (s s1 : RString) (n : Nat) (xs : List (List Nat))
    (hs : s.wf) (hr : s.reserve n = some s1) (hnul : ∀ x ∈ xs, 0 ∉ x)
    (hlen : xs.flatten.length ≤ n) :
    ∀ k : Nat, ∃ t, s1.extendStrs (xs.take k) = some t ∧ t.capacity = s1.capacity := by
  intro k
  obtain ⟨h1swf, h1len, _, h1fit, _, _, _, _⟩ := RString.reserve_eq_some hs.2 hr
  have hsplit : xs.flatten.length
      = (xs.take k).flatten.length + (xs.drop k).flatten.length := by
    conv_lhs => rw [← List.take_append_drop k xs]
    rw [List.flatten_append, List.length_append]
  have hfit : s1.len + (xs.take k).flatten.length < s1.capacity := by omega
  obtain ⟨t, ht, htcap, _, _⟩ :=
    RString.extendStrs_fits (xs.take k) s1 h1swf
      (fun x hx => hnul x (List.mem_of_mem_take hx)) hfit
  exact ⟨t, ht, htcap⟩

/-- Witness for `reserve_no_realloc`: reserving 2 bytes then pushing "a" and
"b" keeps capacity 8. -/
theorem reserve_no_realloc_witness :
    ∃ t, (RString.mk [0, 0, 0, 0, 0, 0, 0, 0] 0 8).extendStrs ([[97], [98]].take 2) = some t ∧
      t.capacity = (RString.mk [0, 0, 0, 0, 0, 0, 0, 0] 0 8).capacity :=
  reserve_no_realloc RString.new (RString.mk [0, 0, 0, 0, 0, 0, 0, 0] 0 8) 2 [[97], [98]]
    RString.wf_new (by decide) (by decide) (by decide) 2

/-- C7: surrendering a never-allocated buffer first performs a fresh
one-byte allocation holding exactly the terminator, which is live and can be
freed exactly once; and adopting the surrendered allocation of any buffer
with its original length and capacity reproduces the original content. -/
theorem into_raw_round_trip :
    RString.new.into_raw = [0] ∧
    (∀ (h : Heap) (s : HString), s.str.capacity = 0 →
      s.into_raw h = (⟨h.next + 1, h.next :: h.live⟩, ⟨h.next, [0]⟩) ∧
      (⟨h.next + 1, h.next :: h.live⟩ : Heap).free h.next = some ⟨h.next + 1, h.live⟩) ∧
    (∀ s : RString, s.wf →
      (RString.from_raw_parts s.into_raw s.len s.capacity).content = s.content) := by
  refine ⟨rfl, fun h s hc => ⟨?_, ?_⟩, fun s hs => ?_⟩
  · rw [HString.into_raw, if_pos hc]
    rfl
  · rw [Heap.free, if_pos (by simp)]
    simp
  · by_cases hc : s.capacity = 0
    · obtain ⟨hlen, hbuf⟩ := hs.2.2.2 hc
      rw [RString.into_raw, if_pos hc, RString.from_raw_parts]
      simp [RString.content, hlen, hbuf]
    · rw [RString.into_raw, if_neg hc, RString.from_raw_parts]

/-- Witness for `into_raw_round_trip`: a concrete heap with a never-allocated
string, and a concrete one-character buffer round-tripped. -/
theorem into_raw_round_trip_witness :
    ((⟨RString.new, 3⟩ : HString).into_raw ⟨5, [9]⟩ = (⟨6, [5, 9]⟩, ⟨5, [0]⟩) ∧
      (⟨6, [5, 9]⟩ : Heap).free 5 = some ⟨6, [9]⟩) ∧
    (RString.from_raw_parts (RString.mk [97, 0] 1 2).into_raw 1 2).content
      = (RString.mk [97, 0] 1 2).content :=
  ⟨into_raw_round_trip.2.1 ⟨5, [9]⟩ ⟨RString.new, 3⟩ rfl,
    into_raw_round_trip.2.2 (RString.mk [97, 0] 1 2)
      ⟨utf8Valid_of_ascii (by decide), by decide⟩⟩

/-- C8: the failing corner of the label-replacement contract. Installing a
never-allocated label (`String::new()`, capacity 0) makes `into_raw` create
a fresh one-byte allocation while the shadow capacity is recorded as 0; the
next replacement returns the prior value rebuilt by `from_raw_parts` with
capacity 0 (violating that function's own documented precondition and debug
assertion), dropping that value frees nothing, and the one-byte allocation
stays live with no owner — it leaks, although the returned value does equal
the previously installed (empty) label. -/
theorem replace_display_name_leak :
    ApiSt.replace_display_name ⟨0, [7]⟩ ⟨none, 0, 0⟩ ⟨RString.new, 3⟩
      = (⟨1, [0, 7]⟩, ⟨some ⟨0, [0]⟩, 0, 0⟩, none) ∧
    ApiSt.replace_display_name ⟨1, [0, 7]⟩ ⟨some ⟨0, [0]⟩, 0, 0⟩ ⟨⟨[98, 0], 1, 2⟩, 7⟩
      = (⟨1, [0, 7]⟩, ⟨some ⟨7, [98, 0]⟩, 1, 2⟩, some ⟨⟨[0], 0, 0⟩, 0⟩) ∧
    HString.drop ⟨1, [0, 7]⟩ ⟨⟨[0], 0, 0⟩, 0⟩ = some ⟨1, [0, 7]⟩ ∧
    (HString.mk ⟨[0], 0, 0⟩ 0).str.capacity = 0 ∧
    (HString.mk ⟨[0], 0, 0⟩ 0).str.content = RString.new.content := by
  exact ⟨by decide, by decide, by decide, rfl, rfl⟩

/-- C9: a panic inside the completion or input-preprocessing entry points
terminates the process (no value is returned to the host), while the other
entry points convert a panic into their documented safe defaults: zero
entries, `Exit` with the session slot intact, a null display value, no
token match, a null icon and a null message. -/
theorem panic_policy :
    trampoline.get_completion none = Outcome.abort ∧
    trampoline.preprocess_input none = Outcome.abort ∧
    trampoline.get_num_entries none = Outcome.ret 0 ∧
    trampoline.token_match none = Outcome.ret 0 ∧
    trampoline.get_icon none = Outcome.ret none ∧
    trampoline.get_message none = Outcome.ret none ∧
    (∀ gb : Bool, trampoline.get_display_value none gb = Outcome.ret none) ∧
    (∀ (st mretv selected_line : Nat) (input : RString),
      trampoline.result (fun _ _ _ => none) st mretv selected_line input
        = Outcome.ret (st, EXIT)) ∧
    trampoline.init (none : Option Nat) none = Outcome.ret (none, 0) ∧
    (∀ slot : Option Nat, trampoline.destroy slot = Outcome.ret none) ∧
    (∀ s : RString, trampoline.get_completion (some s) = Outcome.ret s.into_raw) := by
  refine ⟨rfl, rfl, rfl, rfl, rfl, rfl, fun gb => rfl, fun st m sel inp => ?_, rfl,
    fun slot => rfl, fun s => rfl⟩
  cases hd : decodeEvent m sel <;> simp [trampoline.result, catch_panic, hd, encodeAction]

/-- C10: the message and input-preprocessing entry points hand the host a
null pointer whenever the implementation's string is empty; only a
non-empty string is surrendered as an allocated nul-terminated buffer. -/
theorem empty_result_null :
    (∀ s : RString, s.len = 0 → trampoline.get_message (some s) = Outcome.ret none) ∧
    (∀ s : RString, s.len ≠ 0 →
      trampoline.get_message (some s) = Outcome.ret (some s.into_raw)) ∧
    (∀ s : RString, s.len = 0 → trampoline.preprocess_input (some s) = Outcome.ret none) ∧
    (∀ s : RString, s.len ≠ 0 →
      trampoline.preprocess_input (some s) = Outcome.ret (some s.into_raw)) := by
  refine ⟨fun s h => ?_, fun s h => ?_, fun s h => ?_, fun s h => ?_⟩ <;>
    simp [trampoline.get_message, trampoline.preprocess_input, abort_on_panic,
      catch_panic, h]

/-- Witness for `empty_result_null`: the empty and a one-byte message. -/
theorem empty_result_null_witness :
    trampoline.get_message (some RString.new) = Outcome.ret none ∧
    trampoline.preprocess_input (some (RString.mk [97, 0] 1 2))
      = Outcome.ret (some (RString.mk [97, 0] 1 2).into_raw) :=
  ⟨empty_result_null.1 RString.new rfl,
    empty_result_null.2.2.2 (RString.mk [97, 0] 1 2) (by decide)⟩

end Rofi
